import Mathlib

/-!
Shallow embedding of `src/minimax.py`: a depth-limited minimax search, a
probability-limited variant, a best-move selector, and the self-play driver
step, over an abstract game tree supplied by the chess adapter.

The adapter (`python-chess`) is modelled by `GameTree`: a node records the
values of `board.is_game_over()`, `board.is_checkmate()`, `board.turn`, and
the list of positions reachable by one legal move (`board.legal_moves` /
`board.push`), in enumeration order.  Python float scores are modelled as
rationals; the arithmetic the code performs (division by the constant
10000.0, max/min, comparisons) is exact on the values involved.  A move is
identified with its index in the enumeration order of `legal_moves`.
-/

namespace MinimaxPy

/-- Abstract game position as seen through the python-chess adapter:
`over` models `board.is_game_over()`, `mate` models `board.is_checkmate()`,
`turn` models `board.turn` (`true` = White, the maximizing side), and
`children` lists the positions reached by each legal move, in the order the
adapter enumerates them. -/
inductive GameTree : Type where
  | node (over : Bool) (mate : Bool) (turn : Bool) (children : List GameTree)

def GameTree.over : GameTree → Bool
  | .node o _ _ _ => o

def GameTree.mate : GameTree → Bool
  | .node _ m _ _ => m

def GameTree.turn : GameTree → Bool
  | .node _ _ t _ => t

def GameTree.children : GameTree → List GameTree
  | .node _ _ _ cs => cs

@[simp] theorem GameTree.over_node (o m t cs) : (GameTree.node o m t cs).over = o := rfl

@[simp] theorem GameTree.mate_node (o m t cs) : (GameTree.node o m t cs).mate = m := rfl

@[simp] theorem GameTree.turn_node (o m t cs) : (GameTree.node o m t cs).turn = t := rfl

@[simp] theorem GameTree.children_node (o m t cs) :
    (GameTree.node o m t cs).children = cs := rfl

mutual

/-- Embedding of `minimax(board, depth, max_depth, color, evaluator)`
(src/minimax.py lines 39-87).  `max_score = 10000.0` appears as the rational
literal 10000.  The `for move in board.legal_moves` loop accumulating
`best_score = max/min(best_score, minimax(board.push(move), ...))` is the
helper `mmFold` below. -/
def minimax : GameTree → Nat → Nat → Bool → (GameTree → ℚ) → ℚ
  | .node o m tu cs, depth, maxDepth, color, evaluator =>
    if o then
      if m then
        if color then -((10000 : ℚ) + depth) / 10000
        else ((10000 : ℚ) - depth) / 10000
      else 0
    else if depth = maxDepth then evaluator (.node o m tu cs)
    else if color then mmFold max cs (depth + 1) maxDepth evaluator (-10000)
    else mmFold min cs (depth + 1) maxDepth evaluator 10000

/-- The move loop of `minimax`: each child is the board after `push(move)`,
the recursive call receives the pushed board's `turn`, and the running best
is combined with `op` (`max` for White, `min` for Black). -/
def mmFold (op : ℚ → ℚ → ℚ) : List GameTree → Nat → Nat → (GameTree → ℚ) → ℚ → ℚ
  | [], _, _, _, best => best
  | c :: rest, depth, maxDepth, evaluator, best =>
    mmFold op rest depth maxDepth evaluator
      (op best (minimax c depth maxDepth c.turn evaluator))

end

mutual

/-- Embedding of `probabilistic_minimax(board, proba_depth, min_proba_depth,
color, evaluator)` (src/minimax.py lines 90-141).  `num_moves` is the length
of the legal-move list, computed at the node before the loop; every child is
searched with budget `proba_depth / num_moves`. -/
def probabilistic_minimax : GameTree → ℚ → ℚ → Bool → (GameTree → ℚ) → ℚ
  | .node o m tu cs, probaDepth, minProbaDepth, color, evaluator =>
    if o then
      if m then
        if color then -(10000 : ℚ) / 10000
        else (10000 : ℚ) / 10000
      else 0
    else if probaDepth < minProbaDepth then evaluator (.node o m tu cs)
    else if color then
      pmFold max cs (probaDepth / (cs.length : ℚ)) minProbaDepth evaluator (-10000)
    else
      pmFold min cs (probaDepth / (cs.length : ℚ)) minProbaDepth evaluator 10000

/-- The move loop of `probabilistic_minimax`: every child receives the same
already-divided budget `proba_depth / num_moves`. -/
def pmFold (op : ℚ → ℚ → ℚ) : List GameTree → ℚ → ℚ → (GameTree → ℚ) → ℚ → ℚ
  | [], _, _, _, best => best
  | c :: rest, childBudget, minProbaDepth, evaluator, best =>
    pmFold op rest childBudget minProbaDepth evaluator
      (op best (probabilistic_minimax c childBudget minProbaDepth c.turn evaluator))

end

/-- The move loop of `find_best_move` (src/minimax.py lines 153-170): for the
move of index `i`, the score is `minimax(board.push(move), 0, max_depth,
board.turn, evaluator)`; after `board.pop()` the test `if board.turn` reads
the restored root board, passed here as `rootTurn`.  The best pair is updated
only on strict `>` (White) or strict `<` (Black). -/
def fbmLoop (maxDepth : Nat) (evaluator : GameTree → ℚ) (rootTurn : Bool) :
    List (Nat × GameTree) → Option Nat × ℚ → Option Nat × ℚ
  | [], acc => acc
  | (i, c) :: rest, (bm, bs) =>
    fbmLoop maxDepth evaluator rootTurn rest
      (if rootTurn then
        (if bs < minimax c 0 maxDepth c.turn evaluator then
          (some i, minimax c 0 maxDepth c.turn evaluator) else (bm, bs))
      else
        (if minimax c 0 maxDepth c.turn evaluator < bs then
          (some i, minimax c 0 maxDepth c.turn evaluator) else (bm, bs)))

/-- Embedding of `find_best_move(board, max_depth, evaluator)`
(src/minimax.py lines 144-177).  The returned move is the index of the chosen
legal move (`none` when `best_move` stays `None`); when the root has no legal
move, the sentinel is divided by `max_score` and returned. -/
def find_best_move (t : GameTree) (maxDepth : Nat) (evaluator : GameTree → ℚ) :
    Option Nat × ℚ :=
  if 0 < t.children.length then
    fbmLoop maxDepth evaluator t.turn t.children.enum
      (none, if t.turn then -(10000 : ℚ) else 10000)
  else
    (none, (if t.turn then -(10000 : ℚ) else 10000) / 10000)

/-- Embedding of one iteration of the self-play loop body in `__main__`
(src/minimax.py lines 213-227): while the game is not over, the driver calls
`find_best_move` and then unconditionally executes `board.push(move)`.
Pushing the move of index `i` replaces the board by its `i`-th child;
`board.push(None)` raises in python-chess, modelled as `none`.  A game-over
board leaves the loop unchanged and proceeds to outcome classification. -/
def driverStep (t : GameTree) (maxDepth : Nat) (evaluator : GameTree → ℚ) :
    Option GameTree :=
  if t.over then some t
  else
    match find_best_move t maxDepth evaluator with
    | (some i, _) => t.children.get? i
    | (none, _) => none

mutual

/-- Adapter precondition on a position's whole subtree: every node that is
not reported game-over has at least one legal move (python-chess guarantees
this for real chess positions). -/
def wellFormed : GameTree → Bool
  | .node o _ _ cs => (o || !cs.isEmpty) && wfList cs

def wfList : List GameTree → Bool
  | [] => true
  | c :: rest => wellFormed c && wfList rest

end

/-- Mutable board with its undo stack, as maintained by python-chess:
`board.push(move)` replaces the current position by the pushed child and
records the previous position; `board.pop()` restores it.  The first
component is the current position, the second the stack of saved
positions. -/
abbrev Board := GameTree × List GameTree

/-- Stateful move loop shared by `minimax` and `probabilistic_minimax`:
moves are the indices enumerated at loop entry; each iteration performs
`board.push(move)` (fails if the current board has no such move), runs the
recursive search `f` on the mutated board with the pushed board's `turn`,
then performs `board.pop()` (fails on an empty stack), combining scores with
`op`.  `none` models a raised exception or exhausted fuel. -/
def runLoop (f : Board → Bool → Option (ℚ × Board)) (op : ℚ → ℚ → ℚ) :
    List Nat → Board → ℚ → Option (ℚ × Board)
  | [], s, best => some (best, s)
  | i :: is, s, best =>
    match s.1.children.get? i with
    | none => none
    | some c =>
      match f (c, s.1 :: s.2) c.turn with
      | none => none
      | some (score, s2) =>
        match s2.2 with
        | [] => none
        | p :: rest => runLoop f op is (p, rest) (op best score)

/-- Stateful embedding of `minimax`, making the `board.push` / `board.pop`
mutation explicit.  Recursion is paid for with fuel (the Python recursion
along the finite game tree needs no fuel; running out of fuel is one of the
`none` outcomes and never occurs with fuel above the tree height). -/
def minimaxS : Nat → Board → Nat → Nat → Bool → (GameTree → ℚ) → Option (ℚ × Board)
  | 0, _, _, _, _, _ => none
  | fuel + 1, s, depth, maxDepth, color, evaluator =>
    if s.1.over then
      if s.1.mate then
        if color then some (-((10000 : ℚ) + depth) / 10000, s)
        else some (((10000 : ℚ) - depth) / 10000, s)
      else some (0, s)
    else if depth = maxDepth then some (evaluator s.1, s)
    else if color then
      runLoop (fun s9 col => minimaxS fuel s9 (depth + 1) maxDepth col evaluator) max
        (List.range s.1.children.length) s (-10000)
    else
      runLoop (fun s9 col => minimaxS fuel s9 (depth + 1) maxDepth col evaluator) min
        (List.range s.1.children.length) s 10000

/-- Stateful embedding of `probabilistic_minimax`; `num_moves` is read from
the current board before the loop, and the loop body divides the budget by it
on every iteration (so with zero legal moves the division is never
executed). -/
def probMinimaxS : Nat → Board → ℚ → ℚ → Bool → (GameTree → ℚ) → Option (ℚ × Board)
  | 0, _, _, _, _, _ => none
  | fuel + 1, s, probaDepth, minProbaDepth, color, evaluator =>
    if s.1.over then
      if s.1.mate then
        if color then some (-(10000 : ℚ) / 10000, s)
        else some ((10000 : ℚ) / 10000, s)
      else some (0, s)
    else if probaDepth < minProbaDepth then some (evaluator s.1, s)
    else if color then
      runLoop
        (fun s9 col =>
          probMinimaxS fuel s9 (probaDepth / (s.1.children.length : ℚ)) minProbaDepth col
            evaluator)
        max (List.range s.1.children.length) s (-10000)
    else
      runLoop
        (fun s9 col =>
          probMinimaxS fuel s9 (probaDepth / (s.1.children.length : ℚ)) minProbaDepth col
            evaluator)
        min (List.range s.1.children.length) s 10000

/-- Stateful move loop of `find_best_move`: push, search, pop, then update
the best pair reading `board.turn` from the restored board. -/
def fbmLoopS (f : Board → Bool → Option (ℚ × Board)) :
    List Nat → Board → Option Nat × ℚ → Option ((Option Nat × ℚ) × Board)
  | [], s, acc => some (acc, s)
  | i :: is, s, (bm, bs) =>
    match s.1.children.get? i with
    | none => none
    | some c =>
      match f (c, s.1 :: s.2) c.turn with
      | none => none
      | some (score, s2) =>
        match s2.2 with
        | [] => none
        | p :: rest =>
          fbmLoopS f is (p, rest)
            (if p.turn then (if bs < score then (some i, score) else (bm, bs))
             else (if score < bs then (some i, score) else (bm, bs)))

/-- Stateful embedding of `find_best_move`. -/
def findBestMoveS (fuel : Nat) (s : Board) (maxDepth : Nat) (evaluator : GameTree → ℚ) :
    Option ((Option Nat × ℚ) × Board) :=
  if 0 < s.1.children.length then
    fbmLoopS (fun s9 col => minimaxS fuel s9 0 maxDepth col evaluator)
      (List.range s.1.children.length) s
      (none, if s.1.turn then -(10000 : ℚ) else 10000)
  else
    some ((none, (if s.1.turn then -(10000 : ℚ) else 10000) / 10000), s)

/-- Score a root move is given inside `find_best_move`: the depth-limited
search started at depth 0 on the pushed board, with that board's `turn`. -/
def subScore (maxDepth : Nat) (evaluator : GameTree → ℚ) (c : GameTree) : ℚ :=
  minimax c 0 maxDepth c.turn evaluator

/-- Terminal checkmate position (White to move, mated). -/
def exMate : GameTree := .node true true true []

/-- Terminal drawn position. -/
def exDraw : GameTree := .node true false true []

/-- Non-terminal position whose single legal move leads to a non-terminal
position with no further moves (an adapter-precondition violation below the
root, useful to reach the sentinel). -/
def exStuck : GameTree := .node false false true [.node false false true []]

/-- Well-formed non-terminal position: one legal move to a non-terminal
position whose only move reaches a drawn terminal. -/
def exDeep : GameTree :=
  .node false false true [.node false false true [.node true false true []]]

theorem minimax_node (o m tu : Bool) (cs : List GameTree) (d mD : Nat) (col : Bool)
    (e : GameTree → ℚ) :
    minimax (.node o m tu cs) d mD col e =
      if o then
        if m then
          if col then -((10000 : ℚ) + d) / 10000 else ((10000 : ℚ) - d) / 10000
        else 0
      else if d = mD then e (.node o m tu cs)
      else if col then mmFold max cs (d + 1) mD e (-10000)
      else mmFold min cs (d + 1) mD e 10000 := by
  rw [minimax]

@[simp] theorem mmFold_nil (op : ℚ → ℚ → ℚ) (d mD : Nat) (e : GameTree → ℚ) (b : ℚ) :
    mmFold op [] d mD e b = b := by
  rw [mmFold]

theorem mmFold_cons (op : ℚ → ℚ → ℚ) (c : GameTree) (rest : List GameTree) (d mD : Nat)
    (e : GameTree → ℚ) (b : ℚ) :
    mmFold op (c :: rest) d mD e b =
      mmFold op rest d mD e (op b (minimax c d mD c.turn e)) := by
  rw [mmFold]

theorem probabilistic_minimax_node (o m tu : Bool) (cs : List GameTree) (pb mpd : ℚ)
    (col : Bool) (e : GameTree → ℚ) :
    probabilistic_minimax (.node o m tu cs) pb mpd col e =
      if o then
        if m then
          if col then -(10000 : ℚ) / 10000 else (10000 : ℚ) / 10000
        else 0
      else if pb < mpd then e (.node o m tu cs)
      else if col then pmFold max cs (pb / (cs.length : ℚ)) mpd e (-10000)
      else pmFold min cs (pb / (cs.length : ℚ)) mpd e 10000 := by
  rw [probabilistic_minimax]

@[simp] theorem pmFold_nil (op : ℚ → ℚ → ℚ) (cb mpd : ℚ) (e : GameTree → ℚ) (b : ℚ) :
    pmFold op [] cb mpd e b = b := by
  rw [pmFold]

theorem pmFold_cons (op : ℚ → ℚ → ℚ) (c : GameTree) (rest : List GameTree) (cb mpd : ℚ)
    (e : GameTree → ℚ) (b : ℚ) :
    pmFold op (c :: rest) cb mpd e b =
      pmFold op rest cb mpd e (op b (probabilistic_minimax c cb mpd c.turn e)) := by
  rw [pmFold]

theorem pmFold_eq_foldl (op : ℚ → ℚ → ℚ) (cs : List GameTree) (cb mpd : ℚ)
    (e : GameTree → ℚ) (b : ℚ) :
    pmFold op cs cb mpd e b =
      (cs.map fun c => probabilistic_minimax c cb mpd c.turn e).foldl op b := by
  induction cs generalizing b with
  | nil => simp
  | cons c rest ih => rw [pmFold_cons, ih]; simp

/-- C1: at a state reported game-over by checkmate, `minimax` returns the
sign- and depth-adjusted score `-(BASE + depth)/BASE` when the side to move
is the maximizing side and `(BASE - depth)/BASE` otherwise, with
BASE = 10000, for every depth and depth limit. -/
theorem claim1_checkmate_score (t : GameTree) (d mD : Nat) (col : Bool)
    (e : GameTree → ℚ) (h1 : t.over = true) (h2 : t.mate = true) :
    minimax t d mD col e =
      if col then -((10000 : ℚ) + d) / 10000 else ((10000 : ℚ) - d) / 10000 := by
  cases t with
  | node o m tu cs =>
    simp only [GameTree.over_node, GameTree.mate_node] at h1 h2
    subst h1; subst h2
    rw [minimax_node]
    simp

theorem claim1_checkmate_score_witness :
    exMate.over = true ∧ exMate.mate = true ∧
      minimax exMate 3 5 true (fun _ => 0) = -((10000 : ℚ) + 3) / 10000 := by
  refine ⟨rfl, rfl, ?_⟩
  have h := claim1_checkmate_score exMate 3 5 true (fun _ => 0) rfl rfl
  simpa using h

/-- C2, counterexample: the claim quantifies over every game state, but a
state reported game-over is scored by the terminal branch before the
depth test; at the drawn terminal `exDraw` with the constant evaluator 1,
`minimax(exDraw, 0, 0, White, eval)` returns 0, not `eval(exDraw) = 1`. -/
theorem claim2_counterexample :
    minimax exDraw 0 0 true (fun _ => (1 : ℚ)) ≠ (fun _ => (1 : ℚ)) exDraw := by
  rw [show exDraw = GameTree.node true false true [] from rfl, minimax_node]
  norm_num

/-- C2, amended: for every state NOT reported game-over, calling `minimax`
with `currentDepth = maxDepth` returns exactly `evaluator(state)`. -/
theorem claim2_zero_width (t : GameTree) (d : Nat) (col : Bool) (e : GameTree → ℚ)
    (h : t.over = false) :
    minimax t d d col e = e t := by
  cases t with
  | node o m tu cs =>
    simp only [GameTree.over_node] at h
    subst h
    rw [minimax_node]
    simp

theorem claim2_zero_width_witness :
    exStuck.over = false ∧ minimax exStuck 2 2 true (fun _ => (5 : ℚ)) = 5 := by
  exact ⟨rfl, claim2_zero_width exStuck 2 true (fun _ => (5 : ℚ)) rfl⟩

/-- C3: at every state not reported game-over, `probabilistic_minimax`
returns `evaluator(state)` when the budget is below the threshold, and
otherwise searches every child with budget `probaBudget / n` (where `n` is
the number of legal moves at the node) and folds the child results with
`max` from the -10000 sentinel for the maximizing side, with `min` from
+10000 otherwise. -/
theorem claim3_budget_split (t : GameTree) (pb mpd : ℚ) (col : Bool)
    (e : GameTree → ℚ) (h : t.over = false) :
    probabilistic_minimax t pb mpd col e =
      if pb < mpd then e t
      else if col then
        ((t.children.map fun c =>
            probabilistic_minimax c (pb / (t.children.length : ℚ)) mpd c.turn e).foldl
          max (-10000))
      else
        ((t.children.map fun c =>
            probabilistic_minimax c (pb / (t.children.length : ℚ)) mpd c.turn e).foldl
          min 10000) := by
  cases t with
  | node o m tu cs =>
    simp only [GameTree.over_node] at h
    subst h
    rw [probabilistic_minimax_node]
    simp [pmFold_eq_foldl]

theorem claim3_budget_split_witness :
    exStuck.over = false ∧
      probabilistic_minimax exStuck 0 1 true (fun _ => (3 : ℚ)) = 3 := by
  refine ⟨rfl, ?_⟩
  have h := claim3_budget_split exStuck 0 1 true (fun _ => (3 : ℚ)) rfl
  simpa using h

/-- C5: when the root has zero legal moves, `find_best_move` returns the
pair of no move and the sentinel divided by BASE, i.e. -1 for a maximizing
root and +1 otherwise, as a normal return value. -/
theorem claim5_empty_root (t : GameTree) (mD : Nat) (e : GameTree → ℚ)
    (h : t.children = []) :
    find_best_move t mD e = (none, if t.turn then (-1 : ℚ) else 1) := by
  rw [find_best_move, h]
  cases htu : t.turn <;> norm_num

theorem claim5_empty_root_witness :
    exDraw.children = [] ∧ find_best_move exDraw 4 (fun _ => 0) = (none, -1) := by
  refine ⟨rfl, ?_⟩
  have h := claim5_empty_root exDraw 4 (fun _ => 0) rfl
  simpa using h

/-- C9: a state reported game-over but not checkmate scores exactly 0 in
both the depth-limited and the probability-limited search, for every depth,
budget, threshold, side, and evaluator. -/
theorem claim9_draw_zero (t : GameTree) (d mD : Nat) (pb mpd : ℚ) (col col2 : Bool)
    (e e2 : GameTree → ℚ) (h1 : t.over = true) (h2 : t.mate = false) :
    minimax t d mD col e = 0 ∧ probabilistic_minimax t pb mpd col2 e2 = 0 := by
  cases t with
  | node o m tu cs =>
    simp only [GameTree.over_node, GameTree.mate_node] at h1 h2
    subst h1; subst h2
    rw [minimax_node, probabilistic_minimax_node]
    simp

theorem claim9_draw_zero_witness :
    exDraw.over = true ∧ exDraw.mate = false ∧
      minimax exDraw 2 7 true (fun _ => 9) = 0 ∧
      probabilistic_minimax exDraw 1 2 false (fun _ => 9) = 0 := by
  have h := claim9_draw_zero exDraw 2 7 1 2 true false (fun _ => 9) (fun _ => 9) rfl rfl
  exact ⟨rfl, rfl, h.1, h.2⟩

/-- C10: at a state not reported game-over whose budget has not fallen below
the threshold but which has zero legal moves, `probabilistic_minimax`
returns normally with the raw sentinel (-10000 for the maximizing side,
+10000 otherwise): the loop body containing the division `probaBudget / n`
is never entered, so no division-by-zero error occurs (the stateful run
returns `some`, not an error). -/
theorem claim10_zero_moves (fuel : Nat) (t : GameTree) (stack : List GameTree)
    (pb mpd : ℚ) (col : Bool) (e : GameTree → ℚ)
    (h1 : t.over = false) (h2 : ¬ pb < mpd) (h3 : t.children = []) :
    probMinimaxS (fuel + 1) (t, stack) pb mpd col e =
        some (if col then -(10000 : ℚ) else 10000, (t, stack)) ∧
      probabilistic_minimax t pb mpd col e = (if col then -(10000 : ℚ) else 10000) := by
  cases t with
  | node o m tu cs =>
    simp only [GameTree.over_node, GameTree.children_node] at h1 h3
    subst h1; subst h3
    constructor
    · rw [probMinimaxS]
      cases col <;> simp [h2, runLoop]
    · rw [probabilistic_minimax_node]
      cases col <;> simp [h2]

theorem claim10_zero_moves_witness :
    (GameTree.node false false true []).over = false ∧ ¬ (2 : ℚ) < 1 ∧
      (GameTree.node false false true []).children = [] ∧
      probMinimaxS 1 (GameTree.node false false true [], []) 2 1 true (fun _ => 0) =
        some (-(10000 : ℚ), (GameTree.node false false true [], [])) ∧
      probabilistic_minimax (GameTree.node false false true []) 2 1 true (fun _ => 0) =
        -(10000 : ℚ) := by
  have h := claim10_zero_moves 0 (GameTree.node false false true []) [] 2 1 true
    (fun _ => 0) rfl (by norm_num) rfl
  exact ⟨rfl, by norm_num, rfl, by simpa using h.1, by simpa using h.2⟩

theorem runLoop_restores (f : Board → Bool → Option (ℚ × Board)) (op : ℚ → ℚ → ℚ)
    (hf : ∀ (s : Board) (col : Bool) (r : ℚ) (sOut : Board),
      f s col = some (r, sOut) → sOut = s) :
    ∀ (is : List Nat) (s : Board) (b r : ℚ) (sOut : Board),
      runLoop f op is s b = some (r, sOut) → sOut = s := by
  intro is
  induction is with
  | nil =>
    intro s b r sOut h
    rw [runLoop] at h
    simp only [Option.some.injEq, Prod.mk.injEq] at h
    exact h.2.symm
  | cons i is ih =>
    intro s b r sOut h
    rw [runLoop] at h
    split at h
    · exact absurd h (by simp)
    next c hg =>
      split at h
      · exact absurd h (by simp)
      next score s2 hf2 =>
        have hs2 : s2 = (c, s.1 :: s.2) := hf _ _ _ _ hf2
        subst hs2
        split at h
        next hemp =>
          have hemp9 : s.1 :: s.2 = ([] : List GameTree) := hemp
          exact absurd hemp9 (by simp)
        next p rest hcons =>
          have hcons9 : s.1 :: s.2 = p :: rest := hcons
          injection hcons9 with hp hrest
          subst hp; subst hrest
          have h9 := ih (s.1, s.2) (op b score) r sOut h
          exact h9.trans Prod.mk.eta

theorem minimaxS_restores :
    ∀ (fuel : Nat) (s : Board) (d mD : Nat) (col : Bool) (e : GameTree → ℚ) (r : ℚ)
      (sOut : Board), minimaxS fuel s d mD col e = some (r, sOut) → sOut = s := by
  intro fuel
  induction fuel with
  | zero =>
    intro s d mD col e r sOut h
    rw [minimaxS] at h
    exact absurd h (by simp)
  | succ n ih =>
    intro s d mD col e r sOut h
    rw [minimaxS] at h
    split_ifs at h <;>
      first
        | (simp only [Option.some.injEq, Prod.mk.injEq] at h; exact h.2.symm)
        | exact runLoop_restores _ _ (fun s9 c9 r9 so9 hx => ih s9 _ _ c9 e r9 so9 hx)
            _ _ _ _ _ h

theorem probMinimaxS_restores :
    ∀ (fuel : Nat) (s : Board) (pb mpd : ℚ) (col : Bool) (e : GameTree → ℚ) (r : ℚ)
      (sOut : Board), probMinimaxS fuel s pb mpd col e = some (r, sOut) → sOut = s := by
  intro fuel
  induction fuel with
  | zero =>
    intro s pb mpd col e r sOut h
    rw [probMinimaxS] at h
    exact absurd h (by simp)
  | succ n ih =>
    intro s pb mpd col e r sOut h
    rw [probMinimaxS] at h
    split_ifs at h <;>
      first
        | (simp only [Option.some.injEq, Prod.mk.injEq] at h; exact h.2.symm)
        | exact runLoop_restores _ _ (fun s9 c9 r9 so9 hx => ih s9 _ _ c9 e r9 so9 hx)
            _ _ _ _ _ h

theorem fbmLoopS_restores (f : Board → Bool → Option (ℚ × Board))
    (hf : ∀ (s : Board) (col : Bool) (r : ℚ) (sOut : Board),
      f s col = some (r, sOut) → sOut = s) :
    ∀ (is : List Nat) (s : Board) (acc res : Option Nat × ℚ) (sOut : Board),
      fbmLoopS f is s acc = some (res, sOut) → sOut = s := by
  intro is
  induction is with
  | nil =>
    intro s acc res sOut h
    obtain ⟨bm, bs⟩ := acc
    rw [fbmLoopS] at h
    simp only [Option.some.injEq, Prod.mk.injEq] at h
    exact h.2.symm
  | cons i is ih =>
    intro s acc res sOut h
    obtain ⟨bm, bs⟩ := acc
    rw [fbmLoopS] at h
    split at h
    · exact absurd h (by simp)
    next c hg =>
      split at h
      · exact absurd h (by simp)
      next score s2 hf2 =>
        have hs2 : s2 = (c, s.1 :: s.2) := hf _ _ _ _ hf2
        subst hs2
        split at h
        next hemp =>
          have hemp9 : s.1 :: s.2 = ([] : List GameTree) := hemp
          exact absurd hemp9 (by simp)
        next p rest hcons =>
          have hcons9 : s.1 :: s.2 = p :: rest := hcons
          injection hcons9 with hp hrest
          subst hp; subst hrest
          have h9 := ih (s.1, s.2) _ res sOut h
          exact h9.trans Prod.mk.eta

theorem findBestMoveS_restores (fuel : Nat) (s : Board) (mD : Nat) (e : GameTree → ℚ)
    (res : Option Nat × ℚ) (sOut : Board)
    (h : findBestMoveS fuel s mD e = some (res, sOut)) : sOut = s := by
  rw [findBestMoveS] at h
  split_ifs at h <;>
    first
      | exact fbmLoopS_restores _
          (fun s9 c9 r9 so9 hx => minimaxS_restores fuel s9 0 mD c9 e r9 so9 hx)
          _ _ _ _ _ h
      | (simp only [Option.some.injEq, Prod.mk.injEq] at h; exact h.2.symm)

/-- C8: a fully completed search call — depth-limited `minimax`,
`probabilistic_minimax`, or `find_best_move`, each run on the explicit
mutable board with its push/pop undo stack — leaves the board identical to
its value before the call: every `push` is paired with a `pop` in LIFO
order, so the pre-search state is restored whenever the call returns a
result at all. -/
theorem claim8_state_restored (fuel1 fuel2 fuel3 : Nat) (s : Board)
    (d mD : Nat) (col : Bool) (e1 : GameTree → ℚ) (pb mpd : ℚ) (col2 : Bool)
    (e2 : GameTree → ℚ) (mD3 : Nat) (e3 : GameTree → ℚ) (r1 : ℚ) (s1 : Board)
    (r2 : ℚ) (s2 : Board) (r3 : Option Nat × ℚ) (s3 : Board)
    (h1 : minimaxS fuel1 s d mD col e1 = some (r1, s1))
    (h2 : probMinimaxS fuel2 s pb mpd col2 e2 = some (r2, s2))
    (h3 : findBestMoveS fuel3 s mD3 e3 = some (r3, s3)) :
    s1 = s ∧ s2 = s ∧ s3 = s :=
  ⟨minimaxS_restores _ _ _ _ _ _ _ _ h1, probMinimaxS_restores _ _ _ _ _ _ _ _ h2,
   findBestMoveS_restores _ _ _ _ _ _ h3⟩

theorem claim8_state_restored_witness :
    ((exDraw, ([] : List GameTree)) = ((exDraw, []) : Board)) ∧
      ((exDraw, ([] : List GameTree)) = ((exDraw, []) : Board)) ∧
      ((exDraw, ([] : List GameTree)) = ((exDraw, []) : Board)) :=
  claim8_state_restored 1 1 1 (exDraw, []) 0 0 true (fun _ => 0) 0 1 true (fun _ => 0)
    0 (fun _ => 0) 0 (exDraw, []) 0 (exDraw, []) (none, -1) (exDraw, [])
    (by rw [minimaxS]; simp [exDraw])
    (by rw [probMinimaxS]; simp [exDraw])
    (by rw [findBestMoveS]; simp [exDraw])

@[simp] theorem fbmLoop_nil (mD : Nat) (e : GameTree → ℚ) (rt : Bool)
    (acc : Option Nat × ℚ) : fbmLoop mD e rt [] acc = acc := by
  rw [fbmLoop]

theorem fbmLoop_cons_max (mD : Nat) (e : GameTree → ℚ) (i : Nat) (c : GameTree)
    (rest : List (Nat × GameTree)) (bm : Option Nat) (bs : ℚ) :
    fbmLoop mD e true ((i, c) :: rest) (bm, bs) =
      fbmLoop mD e true rest
        (if bs < subScore mD e c then (some i, subScore mD e c) else (bm, bs)) := by
  rw [fbmLoop]
  simp [subScore]

theorem fbmLoop_cons_min (mD : Nat) (e : GameTree → ℚ) (i : Nat) (c : GameTree)
    (rest : List (Nat × GameTree)) (bm : Option Nat) (bs : ℚ) :
    fbmLoop mD e false ((i, c) :: rest) (bm, bs) =
      fbmLoop mD e false rest
        (if subScore mD e c < bs then (some i, subScore mD e c) else (bm, bs)) := by
  rw [fbmLoop]
  simp [subScore]

theorem fbmLoop_max_char (mD : Nat) (e : GameTree → ℚ) :
    ∀ (cs : List GameTree) (n : Nat) (bm0 : Option Nat) (bs0 : ℚ) (bm : Option Nat)
      (bs : ℚ), fbmLoop mD e true (List.enumFrom n cs) (bm0, bs0) = (bm, bs) →
      (∀ c ∈ cs, subScore mD e c ≤ bs) ∧ bs0 ≤ bs ∧
        ((bm = bm0 ∧ bs = bs0) ∨
          ∃ j, ∃ hj : j < cs.length, bm = some (n + j) ∧
            subScore mD e (cs.get ⟨j, hj⟩) = bs ∧ bs0 < bs ∧
            ∀ i, ∀ hi : i < cs.length, i < j → subScore mD e (cs.get ⟨i, hi⟩) < bs) := by
  intro cs
  induction cs with
  | nil =>
    intro n bm0 bs0 bm bs h
    rw [List.enumFrom] at h
    rw [fbmLoop_nil] at h
    obtain ⟨h1, h2⟩ := Prod.mk.injEq .. ▸ h
    refine ⟨by simp, by rw [h2], Or.inl ⟨h1.symm, h2.symm⟩⟩
  | cons c cs ih =>
    intro n bm0 bs0 bm bs h
    rw [List.enumFrom_cons, fbmLoop_cons_max] at h
    by_cases hlt : bs0 < subScore mD e c
    · rw [if_pos hlt] at h
      obtain ⟨hall, hge, hdisj⟩ := ih (n + 1) (some n) (subScore mD e c) bm bs h
      refine ⟨?_, le_of_lt (lt_of_lt_of_le hlt hge), ?_⟩
      · intro c9 hc9
        rcases List.mem_cons.mp hc9 with hc9 | hc9
        · rw [hc9]; exact hge
        · exact hall c9 hc9
      · rcases hdisj with ⟨hbm, hbs⟩ | ⟨j, hj, hbm, hsc, hlt2, hfirst⟩
        · refine Or.inr ⟨0, by simp, ?_, ?_, ?_, ?_⟩
          · rw [hbm, Nat.add_zero]
          · exact hbs.symm
          · rw [← hbs] at hlt; exact hlt
          · intro i hi hik; omega
        · refine Or.inr ⟨j + 1, by simpa using hj, ?_, ?_, ?_, ?_⟩
          · rw [hbm]; congr 1; omega
          · simpa using hsc
          · exact hlt.trans hlt2
          · intro i hi hik
            cases i with
            | zero => exact hlt2
            | succ i9 =>
              have := hfirst i9 (by simpa using hi) (by omega)
              simpa using this
    · rw [if_neg hlt] at h
      obtain ⟨hall, hge, hdisj⟩ := ih (n + 1) bm0 bs0 bm bs h
      have hc_le : subScore mD e c ≤ bs0 := le_of_not_lt hlt
      refine ⟨?_, hge, ?_⟩
      · intro c9 hc9
        rcases List.mem_cons.mp hc9 with hc9 | hc9
        · rw [hc9]; exact hc_le.trans hge
        · exact hall c9 hc9
      · rcases hdisj with ⟨hbm, hbs⟩ | ⟨j, hj, hbm, hsc, hlt2, hfirst⟩
        · exact Or.inl ⟨hbm, hbs⟩
        · refine Or.inr ⟨j + 1, by simpa using hj, ?_, ?_, hlt2, ?_⟩
          · rw [hbm]; congr 1; omega
          · simpa using hsc
          · intro i hi hik
            cases i with
            | zero => exact lt_of_le_of_lt hc_le hlt2
            | succ i9 =>
              have := hfirst i9 (by simpa using hi) (by omega)
              simpa using this

theorem fbmLoop_min_char (mD : Nat) (e : GameTree → ℚ) :
    ∀ (cs : List GameTree) (n : Nat) (bm0 : Option Nat) (bs0 : ℚ) (bm : Option Nat)
      (bs : ℚ), fbmLoop mD e false (List.enumFrom n cs) (bm0, bs0) = (bm, bs) →
      (∀ c ∈ cs, bs ≤ subScore mD e c) ∧ bs ≤ bs0 ∧
        ((bm = bm0 ∧ bs = bs0) ∨
          ∃ j, ∃ hj : j < cs.length, bm = some (n + j) ∧
            subScore mD e (cs.get ⟨j, hj⟩) = bs ∧ bs < bs0 ∧
            ∀ i, ∀ hi : i < cs.length, i < j → bs < subScore mD e (cs.get ⟨i, hi⟩)) := by
  intro cs
  induction cs with
  | nil =>
    intro n bm0 bs0 bm bs h
    rw [List.enumFrom] at h
    rw [fbmLoop_nil] at h
    obtain ⟨h1, h2⟩ := Prod.mk.injEq .. ▸ h
    refine ⟨by simp, by rw [h2], Or.inl ⟨h1.symm, h2.symm⟩⟩
  | cons c cs ih =>
    intro n bm0 bs0 bm bs h
    rw [List.enumFrom_cons, fbmLoop_cons_min] at h
    by_cases hlt : subScore mD e c < bs0
    · rw [if_pos hlt] at h
      obtain ⟨hall, hge, hdisj⟩ := ih (n + 1) (some n) (subScore mD e c) bm bs h
      refine ⟨?_, le_of_lt (lt_of_le_of_lt hge hlt), ?_⟩
      · intro c9 hc9
        rcases List.mem_cons.mp hc9 with hc9 | hc9
        · rw [hc9]; exact hge
        · exact hall c9 hc9
      · rcases hdisj with ⟨hbm, hbs⟩ | ⟨j, hj, hbm, hsc, hlt2, hfirst⟩
        · refine Or.inr ⟨0, by simp, ?_, ?_, ?_, ?_⟩
          · rw [hbm, Nat.add_zero]
          · exact hbs.symm
          · rw [← hbs] at hlt; exact hlt
          · intro i hi hik; omega
        · refine Or.inr ⟨j + 1, by simpa using hj, ?_, ?_, ?_, ?_⟩
          · rw [hbm]; congr 1; omega
          · simpa using hsc
          · exact hlt2.trans hlt
          · intro i hi hik
            cases i with
            | zero => exact hlt2
            | succ i9 =>
              have := hfirst i9 (by simpa using hi) (by omega)
              simpa using this
    · rw [if_neg hlt] at h
      obtain ⟨hall, hge, hdisj⟩ := ih (n + 1) bm0 bs0 bm bs h
      have hc_le : bs0 ≤ subScore mD e c := le_of_not_lt hlt
      refine ⟨?_, hge, ?_⟩
      · intro c9 hc9
        rcases List.mem_cons.mp hc9 with hc9 | hc9
        · rw [hc9]; exact hge.trans hc_le
        · exact hall c9 hc9
      · rcases hdisj with ⟨hbm, hbs⟩ | ⟨j, hj, hbm, hsc, hlt2, hfirst⟩
        · exact Or.inl ⟨hbm, hbs⟩
        · refine Or.inr ⟨j + 1, by simpa using hj, ?_, ?_, hlt2, ?_⟩
          · rw [hbm]; congr 1; omega
          · simpa using hsc
          · intro i hi hik
            cases i with
            | zero => exact lt_of_lt_of_le hlt2 hc_le
            | succ i9 =>
              have := hfirst i9 (by simpa using hi) (by omega)
              simpa using this

/-- C4: whenever `find_best_move` returns a move `k` with score `s`, the
sub-search score of move `k` equals `s`, every move scores no better than
`s` (`≤ s` for a maximizing root, `≥ s` for a minimizing one), and every
move enumerated strictly before `k` scores strictly worse — the best pair is
updated only on strict improvement, so among moves whose sub-search scores
equal the best score, the first in enumeration order is returned. -/
theorem claim4_first_best (t : GameTree) (mD : Nat) (e : GameTree → ℚ) (k : Nat)
    (s : ℚ) (h : find_best_move t mD e = (some k, s)) :
    ∃ hk : k < t.children.length,
      subScore mD e (t.children.get ⟨k, hk⟩) = s ∧
      ∀ i, ∀ hi : i < t.children.length,
        (t.turn = true → subScore mD e (t.children.get ⟨i, hi⟩) ≤ s ∧
          (i < k → subScore mD e (t.children.get ⟨i, hi⟩) < s)) ∧
        (t.turn = false → s ≤ subScore mD e (t.children.get ⟨i, hi⟩) ∧
          (i < k → s < subScore mD e (t.children.get ⟨i, hi⟩))) := by
  rw [find_best_move] at h
  by_cases hlen : 0 < t.children.length
  · rw [if_pos hlen, List.enum_eq_enumFrom] at h
    cases htu : t.turn with
    | true =>
      rw [htu] at h
      simp only [if_true] at h
      obtain ⟨hall, _, hdisj⟩ :=
        fbmLoop_max_char mD e t.children 0 none (-10000) (some k) s h
      rcases hdisj with ⟨hbm, _⟩ | ⟨j, hj, hbm, hsc, _, hfirst⟩
      · exact absurd hbm (by simp)
      · have hkj : k = j := by
          have := Option.some.inj hbm
          omega
        subst hkj
        refine ⟨hj, hsc, ?_⟩
        intro i hi
        constructor
        · intro _
          exact ⟨hall _ (List.get_mem t.children i hi), fun hik => hfirst i hi hik⟩
        · intro hfalse
          exact absurd hfalse (by simp)
    | false =>
      rw [htu] at h
      simp only [Bool.false_eq_true, if_false] at h
      obtain ⟨hall, _, hdisj⟩ :=
        fbmLoop_min_char mD e t.children 0 none 10000 (some k) s h
      rcases hdisj with ⟨hbm, _⟩ | ⟨j, hj, hbm, hsc, _, hfirst⟩
      · exact absurd hbm (by simp)
      · have hkj : k = j := by
          have := Option.some.inj hbm
          omega
        subst hkj
        refine ⟨hj, hsc, ?_⟩
        intro i hi
        constructor
        · intro htrue
          exact absurd htrue (by simp)
        · intro _
          exact ⟨hall _ (List.get_mem t.children i hi), fun hik => hfirst i hi hik⟩
  · rw [if_neg hlen] at h
    exact absurd (congrArg Prod.fst h) (by simp)

theorem claim4_first_best_witness :
    find_best_move (GameTree.node false false true [exDraw, exDraw]) 1 (fun _ => 0) =
        (some 0, 0) ∧
      ∃ hk : 0 < (GameTree.node false false true [exDraw, exDraw]).children.length,
        subScore 1 (fun _ => 0)
          ((GameTree.node false false true [exDraw, exDraw]).children.get ⟨0, hk⟩) = 0 := by
  have h : find_best_move (GameTree.node false false true [exDraw, exDraw]) 1
      (fun _ => 0) = (some 0, 0) := by decide
  obtain ⟨hk, hsc, _⟩ :=
    claim4_first_best (GameTree.node false false true [exDraw, exDraw]) 1 (fun _ => 0)
      0 0 h
  exact ⟨h, hk, hsc⟩

/-- C6, counterexample: on the non-game-over position `exStuck` with the
evaluator constantly -10000 the selector returns no move, and the driver —
which pushes the returned move unconditionally — fails (models the raised
exception of `board.push(None)`) instead of treating the position as
game-over and returning the unchanged board. -/
theorem claim6_counterexample :
    exStuck.over = false ∧
      (find_best_move exStuck 1 (fun _ => -10000)).1 = none ∧
      driverStep exStuck 1 (fun _ => -10000) = none := by
  exact ⟨rfl, by decide, rfl⟩

/-- C6, amended: whenever the best-move selector returns no move on a
position not reported game-over, the self-play driver — whose loop body
applies `board.push(move)` unconditionally — raises on pushing the null
result (modelled `none`), rather than treating the position as game-over
and skipping to classification. -/
theorem claim6_push_none (t : GameTree) (mD : Nat) (e : GameTree → ℚ)
    (hover : t.over = false) (hnone : (find_best_move t mD e).1 = none) :
    driverStep t mD e = none := by
  cases hfm : find_best_move t mD e with
  | mk bm bs =>
    rw [hfm] at hnone
    simp only at hnone
    subst hnone
    rw [driverStep, if_neg (by simp [hover]), hfm]

theorem claim6_push_none_witness :
    exStuck.over = false ∧ (find_best_move exStuck 1 (fun _ => -10000)).1 = none ∧
      driverStep exStuck 1 (fun _ => -10000) = none := by
  refine ⟨rfl, by decide, ?_⟩
  exact claim6_push_none exStuck 1 (fun _ => -10000) rfl (by decide)

theorem GameTree.inductionOn {P : GameTree → Prop}
    (ind : ∀ o m tu cs, (∀ c ∈ cs, P c) → P (.node o m tu cs)) (t : GameTree) :
    P t := by
  have hs : ∀ (n : Nat) (t9 : GameTree), sizeOf t9 ≤ n → P t9 := by
    intro n
    induction n with
    | zero =>
      intro t9 ht
      cases t9 with
      | node o m tu cs => simp at ht
    | succ n ih =>
      intro t9 ht
      cases t9 with
      | node o m tu cs =>
        refine ind o m tu cs fun c hc => ih c ?_
        have h1 : sizeOf c < sizeOf cs := List.sizeOf_lt_of_mem hc
        have h2 : sizeOf (GameTree.node o m tu cs) =
            1 + sizeOf o + sizeOf m + sizeOf tu + sizeOf cs := by simp
        omega
  exact hs (sizeOf t) t le_rfl

theorem wellFormed_node (o m tu : Bool) (cs : List GameTree) :
    wellFormed (.node o m tu cs) = ((o || !cs.isEmpty) && wfList cs) := by
  rw [wellFormed]

theorem wfList_forall : ∀ cs : List GameTree, wfList cs = true →
    ∀ c ∈ cs, wellFormed c = true := by
  intro cs
  induction cs with
  | nil => intro _ c hc; simp at hc
  | cons c9 rest ih =>
    intro h c hc
    rw [wfList] at h
    simp only [Bool.and_eq_true] at h
    rcases List.mem_cons.mp hc with hc | hc
    · rw [hc]; exact h.1
    · exact ih h.2 c hc

theorem mmFold_max_bounds (d mD : Nat) (e : GameTree → ℚ) :
    ∀ (cs : List GameTree) (b : ℚ),
      (∀ c ∈ cs, -10000 < minimax c d mD c.turn e ∧ minimax c d mD c.turn e < 10000) →
      -10000 < b → b < 10000 →
      -10000 < mmFold max cs d mD e b ∧ mmFold max cs d mD e b < 10000 := by
  intro cs
  induction cs with
  | nil =>
    intro b _ hb1 hb2
    rw [mmFold_nil]
    exact ⟨hb1, hb2⟩
  | cons c rest ih =>
    intro b hall hb1 hb2
    rw [mmFold_cons]
    have hc := hall c (List.mem_cons_self c rest)
    exact ih (max b (minimax c d mD c.turn e))
      (fun c9 hc9 => hall c9 (List.mem_cons_of_mem c hc9))
      (lt_max_of_lt_left hb1) (max_lt hb2 hc.2)

theorem mmFold_min_bounds (d mD : Nat) (e : GameTree → ℚ) :
    ∀ (cs : List GameTree) (b : ℚ),
      (∀ c ∈ cs, -10000 < minimax c d mD c.turn e ∧ minimax c d mD c.turn e < 10000) →
      -10000 < b → b < 10000 →
      -10000 < mmFold min cs d mD e b ∧ mmFold min cs d mD e b < 10000 := by
  intro cs
  induction cs with
  | nil =>
    intro b _ hb1 hb2
    rw [mmFold_nil]
    exact ⟨hb1, hb2⟩
  | cons c rest ih =>
    intro b hall hb1 hb2
    rw [mmFold_cons]
    have hc := hall c (List.mem_cons_self c rest)
    exact ih (min b (minimax c d mD c.turn e))
      (fun c9 hc9 => hall c9 (List.mem_cons_of_mem c hc9))
      (lt_min hb1 hc.1) (min_lt_of_left_lt hb2)

theorem minimax_bounds (mD : Nat) (e : GameTree → ℚ)
    (hmd : (mD : ℚ) + 10000 < 100000000)
    (hev : ∀ s, -10000 < e s ∧ e s < 10000) :
    ∀ t, wellFormed t = true → ∀ d : Nat, d ≤ mD → ∀ col : Bool,
      -10000 < minimax t d mD col e ∧ minimax t d mD col e < 10000 := by
  intro t
  induction t using GameTree.inductionOn with
  | ind o m tu cs ih =>
    intro hwf d hd col
    have hd9 : (d : ℚ) ≤ (mD : ℚ) := by exact_mod_cast hd
    have hd0 : (0 : ℚ) ≤ (d : ℚ) := by positivity
    rw [minimax_node]
    cases o with
    | true =>
      simp only [if_true]
      cases m with
      | true =>
        simp only [if_true]
        cases col with
        | true =>
          simp only [if_true]
          constructor
          · rw [neg_div]
            show -(10000 : ℚ) < -(((10000 : ℚ) + d) / 10000)
            rw [neg_lt_neg_iff, div_lt_iff (by norm_num : (0 : ℚ) < 10000)]
            linarith
          · have hnn : (0 : ℚ) ≤ ((10000 : ℚ) + d) / 10000 := by positivity
            rw [neg_div]
            linarith
        | false =>
          simp only [Bool.false_eq_true, if_false]
          constructor
          · rw [lt_div_iff (by norm_num : (0 : ℚ) < 10000)]
            linarith
          · rw [div_lt_iff (by norm_num : (0 : ℚ) < 10000)]
            linarith
      | false =>
        simp only [Bool.false_eq_true, if_false]
        norm_num
    | false =>
      simp only [Bool.false_eq_true, if_false]
      by_cases hdm : d = mD
      · rw [if_pos hdm]
        exact hev _
      · rw [if_neg hdm]
        have hd2 : d + 1 ≤ mD := by omega
        cases cs with
        | nil =>
          rw [wellFormed_node] at hwf
          simp at hwf
        | cons c rest =>
          rw [wellFormed_node] at hwf
          simp only [Bool.and_eq_true] at hwf
          have hchild : ∀ c9 ∈ c :: rest,
              -10000 < minimax c9 (d + 1) mD c9.turn e ∧
                minimax c9 (d + 1) mD c9.turn e < 10000 :=
            fun c9 hc9 =>
              ih c9 hc9 (wfList_forall _ hwf.2 c9 hc9) (d + 1) hd2 c9.turn
          have hc := hchild c (List.mem_cons_self c rest)
          have hrest : ∀ c9 ∈ rest,
              -10000 < minimax c9 (d + 1) mD c9.turn e ∧
                minimax c9 (d + 1) mD c9.turn e < 10000 :=
            fun c9 hc9 => hchild c9 (List.mem_cons_of_mem c hc9)
          cases col with
          | true =>
            simp only [if_true]
            rw [mmFold_cons, max_eq_right (le_of_lt hc.1)]
            exact mmFold_max_bounds (d + 1) mD e rest _ hrest hc.1 hc.2
          | false =>
            simp only [Bool.false_eq_true, if_false]
            rw [mmFold_cons, min_eq_right (le_of_lt hc.2)]
            exact mmFold_min_bounds (d + 1) mD e rest _ hrest hc.1 hc.2

/-- C7, counterexample: at the non-terminal, well-formed position `exDeep`
with one legal move, searched strictly below the depth limit, the
(type-correct, range-violating) evaluator constantly -10000 makes the
depth-limited search return exactly the sentinel -10000, so the claim as
stated — quantifying over every evaluator — fails. -/
theorem claim7_counterexample :
    exDeep.over = false ∧ (0 : Nat) < 1 ∧ exDeep.children ≠ [] ∧
      wellFormed exDeep = true ∧
      minimax exDeep 0 1 true (fun _ => -10000) = -10000 := by
  refine ⟨rfl, by norm_num, by simp [exDeep], by decide, by decide⟩

/-- C7, amended: for every non-terminal state strictly below the depth limit
with at least one legal move, whose subtree satisfies the adapter
precondition, provided additionally that the evaluator's values lie strictly
between -BASE and BASE and that `maxDepth + BASE < BASE^2`, depth-limited
minimax never returns the sentinel -BASE or +BASE. -/
theorem claim7_no_sentinel (t : GameTree) (d mD : Nat) (col : Bool)
    (e : GameTree → ℚ) (hover : t.over = false) (hd : d < mD)
    (hne : t.children ≠ []) (hwf : wellFormed t = true)
    (hev : ∀ s, -10000 < e s ∧ e s < 10000)
    (hmd : (mD : ℚ) + 10000 < 100000000) :
    minimax t d mD col e ≠ -10000 ∧ minimax t d mD col e ≠ 10000 := by
  obtain ⟨h1, h2⟩ := minimax_bounds mD e hmd hev t hwf d (le_of_lt hd) col
  exact ⟨ne_of_gt h1, ne_of_lt h2⟩

theorem claim7_no_sentinel_witness :
    exDeep.over = false ∧ exDeep.children ≠ [] ∧ wellFormed exDeep = true ∧
      minimax exDeep 0 1 true (fun _ => 0) ≠ -10000 ∧
      minimax exDeep 0 1 true (fun _ => 0) ≠ 10000 := by
  refine ⟨rfl, by simp [exDeep], by decide, ?_⟩
  exact claim7_no_sentinel exDeep 0 1 true (fun _ => 0) rfl (by norm_num)
    (by simp [exDeep]) (by decide) (fun s => by norm_num) (by norm_num)

end MinimaxPy
